import Mathlib

set_option maxRecDepth 100000

/-
Verification development for `src/mlg_clustering.c` (`farthest_neighbor`):
complete-linkage agglomerative clustering driven by a pairwise distance
matrix, starting from a given 1-based partition labeling, merging cluster
pairs while their selected distance is strictly below a threshold.

Shallow embedding notes:
* C `double` values are modeled as `ℚ` (the algorithm only compares and
  copies them; the sentinel guards `-1` / `> -0.5` are exact).
* The n-by-n matrix `dist` is modeled as a function `d : Nat → Nat → ℚ`,
  `d k l` standing for `REAL(dist)[k*num_individuals + l]`.
* A cluster row `cluster_matrix[s]` holds its members followed by `-1`
  sentinels and every loop over it stops at the first `-1`; the row is
  modeled as the `List Nat` of its members in order, and `cluster_size[s]`
  is that list's length (the C code keeps the two in lockstep).
* The label vector `mlg` is read as `cur_mlg = REAL(mlg)[i]` and used as
  row index `cur_mlg - 1`; labels are modeled as `Nat`.  The C code does
  no validation (only `// TODO: Input validation`), so an out-of-range
  label makes `cluster_matrix[cur_mlg-1][...] = i` an out-of-bounds
  write; the embedding returns `none` exactly where that unchecked array
  access would leave the array bounds.
-/

/-- State of the algorithm: `clusters s` is the member list of cluster slot
`s` (the meaningful prefix of `cluster_matrix[s]`), `numClusters` mirrors
the C variable `num_clusters`. -/
structure CState where
  clusters : Nat → List Nat
  numClusters : Nat

/-- The initialization loop (C lines 116-129): entity `i` with label
`lab = mlg[i]` is appended to row `lab - 1`; `num_clusters` is incremented
when that row was empty.  The `none` branch marks the out-of-bounds row
access the C code performs on a label outside `[1, n]` (the source has no
validation, only `// TODO: Input validation`). -/
def fillGo (n : Nat) : Nat → List Nat → CState → Option CState
  | _, [], st => some st
  | i, lab :: rest, st =>
    if 1 ≤ lab ∧ lab ≤ n then
      fillGo n (i + 1) rest
        { clusters := Function.update st.clusters (lab - 1)
            (st.clusters (lab - 1) ++ [i]),
          numClusters :=
            if st.clusters (lab - 1) = [] then st.numClusters + 1
            else st.numClusters }
    else none

/-- Partition Store initialization from the label vector. -/
def fillClusters (n : Nat) (mlg : List Nat) : Option CState :=
  fillGo n 0 mlg { clusters := fun _ => [], numClusters := 0 }

/-- The two innermost scan loops (C lines 157-171): fold the running
`tmp_max` over all member pairs `(k, l)` of rows `A` and `B`, starting
from the incoming accumulator `t0` (the C code does NOT reset `tmp_max`
between `j_cluster` iterations). -/
def tmpMaxFold (d : Nat → Nat → ℚ) (A B : List Nat) (t0 : ℚ) : ℚ :=
  A.foldl (fun t k => B.foldl (fun t2 l => if d k l > t2 then d k l else t2) t) t0

/-- Complete-linkage distance of two member lists: the `tmp_max` fold
started from the sentinel `-1` (for nonempty lists this is the maximum of
`d k l` over member pairs). -/
def clDist (d : Nat → Nat → ℚ) (A B : List Nat) : ℚ :=
  tmpMaxFold d A B (-1)

/-- The constant `-0.5` of the guard `tmp_max > -0.5` (C line 174), given
by explicit numerator and denominator so that it reduces definitionally. -/
def negHalf : ℚ := ⟨-1, 2, by decide, by show Nat.Coprime 1 2; exact Nat.coprime_one_left 2⟩

/-- Sanity check: `negHalf` is the rational `-1/2`. -/
theorem negHalf_eq : negHalf = -(1/2) := by
  rw [negHalf, Rat.mk'_eq_divInt, Rat.divInt_eq_div]
  norm_num

/-- One `j_cluster` iteration of the scan (C lines 154-180).  The
accumulator is `(tmp_max, min_cluster_distance, closest_pair)`, the
closest pair being `none` while still `(-1, -1)`. -/
def scanJstep (d : Nat → Nat → ℚ) (cl : Nat → List Nat) (i : Nat)
    (acc : ℚ × ℚ × Option (Nat × Nat)) (j : Nat) : ℚ × ℚ × Option (Nat × Nat) :=
  let t := tmpMaxFold d (cl i) (cl j) acc.1
  if t > negHalf ∧ (t < acc.2.1 ∨ acc.2.1 < 0) then (t, t, some (i, j))
  else (t, acc.2.1, acc.2.2)

/-- One `i_cluster` iteration of the scan (C lines 149-182): `tmp_max` is
reset to `-1` here, then the inner loop runs over `j ∈ [i+1, n)`. -/
def scanIstep (n : Nat) (d : Nat → Nat → ℚ) (cl : Nat → List Nat)
    (acc : ℚ × Option (Nat × Nat)) (i : Nat) : ℚ × Option (Nat × Nat) :=
  ((List.range' (i + 1) (n - (i + 1))).foldl (scanJstep d cl i) (-1, acc.1, acc.2)).2

/-- The Closest-Pair Scanner (C lines 142-182): returns the final
`(min_cluster_distance, closest_pair)`. -/
def scanClusters (n : Nat) (d : Nat → Nat → ℚ) (cl : Nat → List Nat) :
    ℚ × Option (Nat × Nat) :=
  (List.range n).foldl (scanIstep n d cl) (-1, none)

/-- The merge step (C lines 185-198): append the loser's members to the
winner's row, clear the loser's row, decrement `num_clusters`. -/
def mergeClusters (st : CState) (a b : Nat) : CState :=
  { clusters :=
      Function.update (Function.update st.clusters a (st.clusters a ++ st.clusters b)) b [],
    numClusters := st.numClusters - 1 }

/-- One body of the main `while` loop (C lines 138-199): scan, then merge
the recorded closest pair when its distance is strictly below the
threshold.  Returns the new state together with the new
`min_cluster_distance`.  (The `none` arm is unreachable whenever more than
one nonempty cluster exists; in the C code it would index
`cluster_size[-1]`.) -/
def loopBody (n : Nat) (d : Nat → Nat → ℚ) (th : ℚ) (st : CState) : CState × ℚ :=
  let s := scanClusters n d st.clusters
  if s.1 < th then
    match s.2 with
    | some p => (mergeClusters st p.1 p.2, s.1)
    | none => (st, s.1)
  else (st, s.1)

/-- The main `while` loop (C line 137):
`while (min_cluster_distance < thresh && num_clusters > 1)`, with explicit
fuel (each continuing iteration either merges, strictly decreasing
`num_clusters`, or makes the guard fail at the next check, so `n + 1`
units of fuel are never exhausted on valid inputs). -/
def runLoop (n : Nat) (d : Nat → Nat → ℚ) (th : ℚ) : Nat → CState → ℚ → CState
  | 0, st, _ => st
  | fuel + 1, st, m =>
    if m < th ∧ 1 < st.numClusters then
      runLoop n d th fuel (loopBody n d th st).1 (loopBody n d th st).2
    else st

/-- The output-filling loop (C lines 203-211): for each slot `s` and each
member `e` of its row, set `Rout[e] = s + 1`.  The vector starts
uninitialized, modeled as `none` everywhere. -/
def fillOutput (n : Nat) (cl : Nat → List Nat) : Nat → Option Nat :=
  (List.range n).foldl
    (fun out s => (cl s).foldl (fun o x => Function.update o x (some (s + 1))) out)
    (fun _ => none)

/-- The returned labeling as a list indexed by entity. -/
def outputList (n : Nat) (st : CState) : List (Option Nat) :=
  (List.range n).map (fillOutput n st.clusters)

/-- The partition state at loop exit, starting from
`min_cluster_distance = -1` (C line 136). -/
def finalState (n : Nat) (d : Nat → Nat → ℚ) (th : ℚ) (st0 : CState) : CState :=
  runLoop n d th (n + 1) st0 (-1)

/-- The whole entry point `farthest_neighbor` (C lines 46-226):
initialization, main loop, output encoding. -/
def farthest_neighbor (n : Nat) (d : Nat → Nat → ℚ) (mlg : List Nat) (th : ℚ) :
    Option (List (Option Nat)) :=
  (fillClusters n mlg).map (fun st0 => outputList n (finalState n d th st0))

/-- Number of occurrences of entity `e` across the first `n` rows of a
cluster map. -/
def countSum (n : Nat) (cl : Nat → List Nat) (e : Nat) : Nat :=
  Finset.sum (Finset.range n) (fun s => (cl s).count e)

/-- Number of occurrences of entity `e` across all cluster rows of a
state. -/
def slotCount (n : Nat) (st : CState) (e : Nat) : Nat :=
  countSum n st.clusters e

/-- Modelled from the spec: the Closest-Pair Scanner of spec section 4.3 —
iterate all unordered pairs `(i, j)`, `i < j`, in ascending order, skip
pairs with an empty slot, take each pair's own complete-linkage distance,
and keep the strict minimum (ties keep the earliest pair). -/
def specClosestPair (n : Nat) (d : Nat → Nat → ℚ) (cl : Nat → List Nat) :
    Option ((Nat × Nat) × ℚ) :=
  (List.range n).foldl
    (fun acc i =>
      (List.range' (i + 1) (n - (i + 1))).foldl
        (fun acc2 j =>
          if cl i = [] ∨ cl j = [] then acc2
          else
            match acc2 with
            | none => some ((i, j), clDist d (cl i) (cl j))
            | some p =>
              if clDist d (cl i) (cl j) < p.2 then some ((i, j), clDist d (cl i) (cl j))
              else acc2)
        acc)
    none

/-- Distance matrix of the three-entity instance that exposes the
`tmp_max` accumulation: `d(0,2) = 1`, all other off-diagonal entries 10. -/
def distC1 : Nat → Nat → ℚ := fun i j =>
  if i = j then 0
  else if (i = 0 ∧ j = 2) ∨ (i = 2 ∧ j = 0) then 1 else 10

/-- Distance matrix of the spec's end-to-end example:
`d(0,1) = d(2,3) = 1`, all other off-diagonal entries 5. -/
def exDist : Nat → Nat → ℚ := fun i j =>
  if i = j then 0
  else if (min i j = 0 ∧ max i j = 1) ∨ (min i j = 2 ∧ max i j = 3) then 1 else 5

/-- Claim C1: the value the Closest-Pair Scanner compares for a pair of
nonempty slots does NOT always equal that pair's complete-linkage
distance, and the selected pair does NOT always attain the global minimum:
on three singletons with `d(0,1) = d(1,2) = 10` and `d(0,2) = 1`, the
scanner (whose `tmp_max` reset sits outside the `j_cluster` loop, C line
151) returns pair `(0, 1)` at value `10`, while pair `(0, 2)` has
complete-linkage distance `1` and is the global minimum chosen by the
spec's scanner; at threshold `5` the code therefore performs no merge at
all.  This contradicts the code's own comments (C lines 146-148). -/
theorem c1_scanner_bug :
    (fillClusters 3 [1, 2, 3]).map (fun st => scanClusters 3 distC1 st.clusters)
      = some (10, some (0, 1)) ∧
    (fillClusters 3 [1, 2, 3]).map (fun st => clDist distC1 (st.clusters 0) (st.clusters 2))
      = some 1 ∧
    (fillClusters 3 [1, 2, 3]).map (fun st => specClosestPair 3 distC1 st.clusters)
      = some ((0, 2), (1 : ℚ)) ∧
    farthest_neighbor 3 distC1 [1, 2, 3] 5 = some [some 1, some 2, some 3] := by
  refine ⟨by decide, by decide, by decide, by decide⟩

/-- Claim C2: on a label outside `[1, n]` the C code does not fail with
`InvalidLabel`: it performs an unchecked out-of-bounds array write
(validation is an unimplemented TODO, C line 53).  In the embedding the
unmet array-bounds precondition of `cluster_matrix[cur_mlg-1]` surfaces as
`none` during Partition Store initialization, before any merging. -/
theorem c2_invalid_label :
    farthest_neighbor 2 (fun _ _ => 0) [3, 1] 1 = none := by decide

/-- Claim C8: the end-to-end example: `n = 4`, labels `[1,2,3,4]`,
`d(0,1) = d(2,3) = 1`, all other distances 5, threshold 2.  Entities 0,1
merge into slot 0, entities 2,3 merge into slot 2, no further merge
happens, and the output labeling is `[1, 1, 3, 3]`: entities 0 and 1
share one label and entities 2 and 3 share a different one. -/
theorem c8_end_to_end :
    farthest_neighbor 4 exDist [1, 2, 3, 4] 2 = some [some 1, some 1, some 3, some 3] ∧
    (fillClusters 4 [1, 2, 3, 4]).map (fun st =>
        ((finalState 4 exDist 2 st).clusters 0, (finalState 4 exDist 2 st).clusters 1,
         (finalState 4 exDist 2 st).clusters 2, (finalState 4 exDist 2 st).clusters 3))
      = some ([0, 1], [], [2, 3], []) := by
  refine ⟨by decide, by decide⟩

/-- Folding a step function along a list preserves any invariant that each
step preserves. -/
theorem foldl_preserve {α β : Type} (f : α → β → α) (P : α → Prop) :
    ∀ (l : List β) (a : α), P a → (∀ acc x, x ∈ l → P acc → P (f acc x)) → P (l.foldl f a) := by
  intro l
  induction l with
  | nil => intro a ha _; exact ha
  | cons x l ih =>
    intro a ha hstep
    exact ih (f a x) (hstep a x (List.mem_cons_self x l) ha)
      (fun acc y hy hacc => hstep acc y (List.mem_cons_of_mem x hy) hacc)

/-- The innermost max-fold never goes below its starting value. -/
theorem innerFold_ge_init (d : Nat → Nat → ℚ) (k : Nat) :
    ∀ (B : List Nat) (t : ℚ),
      t ≤ B.foldl (fun t2 l => if d k l > t2 then d k l else t2) t := by
  intro B
  induction B with
  | nil => intro t; exact le_rfl
  | cons l B ih =>
    intro t
    have h1 : t ≤ (if d k l > t then d k l else t) := by
      split_ifs with h
      · exact le_of_lt h
      · exact le_rfl
    exact le_trans h1 (ih _)

/-- The innermost max-fold returns its starting value or some entry. -/
theorem innerFold_eq_or_mem (d : Nat → Nat → ℚ) (k : Nat) :
    ∀ (B : List Nat) (t : ℚ),
      B.foldl (fun t2 l => if d k l > t2 then d k l else t2) t = t ∨
        ∃ l, l ∈ B ∧ B.foldl (fun t2 l => if d k l > t2 then d k l else t2) t = d k l := by
  intro B
  induction B with
  | nil => intro t; exact Or.inl rfl
  | cons l B ih =>
    intro t
    rcases ih (if d k l > t then d k l else t) with h | ⟨l2, hl2, h⟩
    · by_cases hc : d k l > t
      · right
        refine ⟨l, List.mem_cons_self l B, ?_⟩
        rw [show List.foldl _ t (l :: B) = List.foldl _ (if d k l > t then d k l else t) B from rfl, h,
          if_pos hc]
      · left
        rw [show List.foldl _ t (l :: B) = List.foldl _ (if d k l > t then d k l else t) B from rfl, h,
          if_neg hc]
    · exact Or.inr ⟨l2, List.mem_cons_of_mem l hl2, h⟩

/-- The innermost max-fold dominates every entry it visits. -/
theorem innerFold_ge_entry (d : Nat → Nat → ℚ) (k : Nat) :
    ∀ (B : List Nat) (t : ℚ) (l0 : Nat), l0 ∈ B →
      d k l0 ≤ B.foldl (fun t2 l => if d k l > t2 then d k l else t2) t := by
  intro B
  induction B with
  | nil => intro t l0 h; exact absurd h (List.not_mem_nil l0)
  | cons l B ih =>
    intro t l0 h
    rcases List.mem_cons.1 h with h0 | h0
    · subst h0
      have h1 : d k l0 ≤ (if d k l0 > t then d k l0 else t) := by
        split_ifs with hc
        · exact le_rfl
        · exact le_of_not_lt hc
      exact le_trans h1 (innerFold_ge_init d k B _)
    · exact ih _ l0 h0

/-- `tmpMaxFold` over an empty first cluster is the identity. -/
theorem tmpMaxFold_nil_left (d : Nat → Nat → ℚ) (B : List Nat) (t : ℚ) :
    tmpMaxFold d [] B t = t := rfl

/-- `tmpMaxFold` over an empty second cluster is the identity. -/
theorem tmpMaxFold_nil_right (d : Nat → Nat → ℚ) :
    ∀ (A : List Nat) (t : ℚ), tmpMaxFold d A [] t = t := by
  intro A
  induction A with
  | nil => intro t; rfl
  | cons k A ih => intro t; exact ih t

/-- `tmpMaxFold` never goes below its starting value. -/
theorem tmpMaxFold_ge_init (d : Nat → Nat → ℚ) (B : List Nat) :
    ∀ (A : List Nat) (t : ℚ), t ≤ tmpMaxFold d A B t := by
  intro A
  induction A with
  | nil => intro t; exact le_rfl
  | cons k A ih =>
    intro t
    exact le_trans (innerFold_ge_init d k B t) (ih _)

/-- `tmpMaxFold` returns its starting value or some visited entry. -/
theorem tmpMaxFold_eq_or_mem (d : Nat → Nat → ℚ) (B : List Nat) :
    ∀ (A : List Nat) (t : ℚ),
      tmpMaxFold d A B t = t ∨
        ∃ k, k ∈ A ∧ ∃ l, l ∈ B ∧ tmpMaxFold d A B t = d k l := by
  intro A
  induction A with
  | nil => intro t; exact Or.inl rfl
  | cons k A ih =>
    intro t
    have hstep : tmpMaxFold d (k :: A) B t
        = tmpMaxFold d A B (B.foldl (fun t2 l => if d k l > t2 then d k l else t2) t) := rfl
    rcases ih (B.foldl (fun t2 l => if d k l > t2 then d k l else t2) t) with h | ⟨k2, hk2, l2, hl2, h⟩
    · rcases innerFold_eq_or_mem d k B t with h2 | ⟨l2, hl2, h2⟩
      · left; rw [hstep, h, h2]
      · right
        exact ⟨k, List.mem_cons_self k A, l2, hl2, by rw [hstep, h, h2]⟩
    · exact Or.inr ⟨k2, List.mem_cons_of_mem k hk2, l2, hl2, by rw [hstep, h]⟩

/-- `tmpMaxFold` dominates every entry it visits. -/
theorem tmpMaxFold_ge_entry (d : Nat → Nat → ℚ) (B : List Nat) :
    ∀ (A : List Nat) (t : ℚ) (k0 l0 : Nat), k0 ∈ A → l0 ∈ B →
      d k0 l0 ≤ tmpMaxFold d A B t := by
  intro A
  induction A with
  | nil => intro t k0 l0 h _; exact absurd h (List.not_mem_nil k0)
  | cons k A ih =>
    intro t k0 l0 hk hl
    rcases List.mem_cons.1 hk with h0 | h0
    · subst h0
      exact le_trans (innerFold_ge_entry d k0 B t l0 hl) (tmpMaxFold_ge_init d B A _)
    · exact ih _ k0 l0 h0 hl

/-- With a nonnegative matrix, the complete-linkage value of two nonempty
clusters is attained at some member pair. -/
theorem clDist_mem (d : Nat → Nat → ℚ) (A B : List Nat)
    (hA : A ≠ []) (hB : B ≠ []) (hd : ∀ k l, 0 ≤ d k l) :
    ∃ k, k ∈ A ∧ ∃ l, l ∈ B ∧ clDist d A B = d k l := by
  obtain ⟨a0, ha0⟩ := List.exists_mem_of_ne_nil A hA
  obtain ⟨b0, hb0⟩ := List.exists_mem_of_ne_nil B hB
  rcases tmpMaxFold_eq_or_mem d B A (-1) with h | h
  · exfalso
    have h1 : d a0 b0 ≤ clDist d A B := tmpMaxFold_ge_entry d B A (-1) a0 b0 ha0 hb0
    have h2 : (0 : ℚ) ≤ d a0 b0 := hd a0 b0
    rw [clDist] at *
    rw [h] at h1
    linarith
  · exact h

/-- With a nonnegative matrix, `tmpMaxFold` over two nonempty clusters
dominates their complete-linkage distance, whatever the starting value. -/
theorem tmpMaxFold_ge_clDist (d : Nat → Nat → ℚ) (A B : List Nat) (t : ℚ)
    (hA : A ≠ []) (hB : B ≠ []) (hd : ∀ k l, 0 ≤ d k l) :
    clDist d A B ≤ tmpMaxFold d A B t := by
  obtain ⟨k, hk, l, hl, h⟩ := clDist_mem d A B hA hB hd
  rw [h]
  exact tmpMaxFold_ge_entry d B A t k l hk hl

/-- Unfolding lemma for `runLoop` at zero fuel. -/
theorem runLoop_zero (n : Nat) (d : Nat → Nat → ℚ) (th : ℚ) (st : CState) (m : ℚ) :
    runLoop n d th 0 st m = st := rfl

/-- Unfolding lemma for `runLoop` at successor fuel. -/
theorem runLoop_succ (n : Nat) (d : Nat → Nat → ℚ) (th : ℚ) (f : Nat) (st : CState) (m : ℚ) :
    runLoop n d th (f + 1) st m =
      if m < th ∧ 1 < st.numClusters then
        runLoop n d th f (loopBody n d th st).1 (loopBody n d th st).2
      else st := rfl

/-- The sentinel `-1` does not pass the `> -0.5` guard. -/
theorem neg_one_not_gt_negHalf : ¬ ((-1 : ℚ) > negHalf) := by decide

/-- Soundness of the recorded closest pair: whenever the scan returns a
pair, its slots satisfy `a < b < n` and the winner slot `a` is nonempty. -/
theorem scanClusters_pair_sound (n : Nat) (d : Nat → Nat → ℚ) (cl : Nat → List Nat)
    (m : ℚ) (a b : Nat) (h : scanClusters n d cl = (m, some (a, b))) :
    a < b ∧ b < n ∧ cl a ≠ [] := by
  have main : ∀ x y, (scanClusters n d cl).2 = some (x, y) → x < y ∧ y < n ∧ cl x ≠ [] := by
    rw [scanClusters]
    apply foldl_preserve (scanIstep n d cl)
      (fun r => ∀ x y, r.2 = some (x, y) → x < y ∧ y < n ∧ cl x ≠ [])
    · intro x y hxy; exact absurd hxy (by simp)
    · intro acc i hi hacc
      have hin : i < n := List.mem_range.1 hi
      rw [scanIstep]
      have inner : ∀ s : ℚ × ℚ × Option (Nat × Nat),
          ((s.1 > negHalf → cl i ≠ []) ∧
            (∀ x y, s.2.2 = some (x, y) → x < y ∧ y < n ∧ cl x ≠ [])) →
          ∀ x y, s.2.2 = some (x, y) → x < y ∧ y < n ∧ cl x ≠ [] :=
        fun _ h2 => h2.2
      apply inner
      apply foldl_preserve (scanJstep d cl i)
        (fun s => (s.1 > negHalf → cl i ≠ []) ∧
          (∀ x y, s.2.2 = some (x, y) → x < y ∧ y < n ∧ cl x ≠ []))
      · exact ⟨fun hg => absurd hg neg_one_not_gt_negHalf, hacc⟩
      · intro s j hj hs
        have hjr := List.mem_range'_1.1 hj
        have hij : i < j := by omega
        have hjn : j < n := by omega
        rw [scanJstep]
        have hQ1 : tmpMaxFold d (cl i) (cl j) s.1 > negHalf → cl i ≠ [] := by
          intro hgt hnil
          rw [hnil, tmpMaxFold_nil_left] at hgt
          exact hs.1 hgt hnil
        split_ifs with hg
        · refine ⟨fun _ => hQ1 hg.1, ?_⟩
          intro x y hxy
          obtain ⟨hx, hy⟩ : i = x ∧ j = y := by simpa [Prod.ext_iff] using hxy
          subst hx; subst hy
          exact ⟨hij, hjn, hQ1 hg.1⟩
        · exact ⟨hQ1, hs.2⟩
  have := main a b (by rw [h])
  exact this

/-- When every pair of distinct nonempty clusters is at complete-linkage
distance at least `th`, the scan either records nothing or records a
minimum distance of at least `th`. -/
theorem scanClusters_stable (n : Nat) (d : Nat → Nat → ℚ) (cl : Nat → List Nat) (th : ℚ)
    (hd : ∀ k l, 0 ≤ d k l)
    (hs : ∀ i, i < n → ∀ j, j < n → i ≠ j → cl i ≠ [] → cl j ≠ [] →
      th ≤ clDist d (cl i) (cl j)) :
    scanClusters n d cl = (-1, none) ∨ th ≤ (scanClusters n d cl).1 := by
  rw [scanClusters]
  apply foldl_preserve (scanIstep n d cl) (fun r => r = (-1, none) ∨ th ≤ r.1)
  · exact Or.inl rfl
  · intro acc i hi hacc
    have hin : i < n := List.mem_range.1 hi
    rw [scanIstep]
    have inner : ∀ s : ℚ × ℚ × Option (Nat × Nat),
        ((s.1 = -1 ∨ th ≤ s.1) ∧ (s.2 = (-1, none) ∨ th ≤ s.2.1)) →
        (s.2 = (-1, none) ∨ th ≤ s.2.1) := fun _ h2 => h2.2
    apply inner
    apply foldl_preserve (scanJstep d cl i)
      (fun s => (s.1 = -1 ∨ th ≤ s.1) ∧ (s.2 = (-1, none) ∨ th ≤ s.2.1))
    · constructor
      · exact Or.inl rfl
      · rcases hacc with h | h
        · left; rw [h]
        · exact Or.inr h
    · intro s j hj hs2
      have hjr := List.mem_range'_1.1 hj
      have hij : i ≠ j := by omega
      have hjn : j < n := by omega
      rw [scanJstep]
      have ht : tmpMaxFold d (cl i) (cl j) s.1 = -1 ∨ th ≤ tmpMaxFold d (cl i) (cl j) s.1 := by
        by_cases hA : cl i = []
        · rw [hA, tmpMaxFold_nil_left]; exact hs2.1
        · by_cases hB : cl j = []
          · rw [hB, tmpMaxFold_nil_right]; exact hs2.1
          · right
            exact le_trans (hs i hin j hjn hij hA hB) (tmpMaxFold_ge_clDist d (cl i) (cl j) s.1 hA hB hd)
      split_ifs with hg
      · have hth : th ≤ tmpMaxFold d (cl i) (cl j) s.1 := by
          rcases ht with h | h
          · exact absurd (h ▸ hg.1) neg_one_not_gt_negHalf
          · exact h
        exact ⟨Or.inr hth, Or.inr hth⟩
      · exact ⟨ht, hs2.2⟩

/-- Updating one row changes a `countSum` by the difference of the row
counts (stated additively to stay in `Nat`). -/
theorem sum_range_update (g : Nat → Nat) (n a v : Nat) (ha : a < n) :
    Finset.sum (Finset.range n) (Function.update g a v) + g a
      = Finset.sum (Finset.range n) g + v := by
  have hmem : a ∈ Finset.range n := Finset.mem_range.2 ha
  rw [Finset.sum_update_of_mem hmem g v, ← Finset.add_sum_erase _ g hmem, Finset.erase_eq]
  ring

/-- Pointwise: counting in an updated cluster map is an update of the
count function. -/
theorem count_update_fun (cl : Nat → List Nat) (a : Nat) (L : List Nat) (e : Nat) :
    (fun s => ((Function.update cl a L) s).count e)
      = Function.update (fun s => (cl s).count e) a (L.count e) := by
  funext s
  simp only [Function.update_apply]
  split_ifs <;> rfl

/-- `countSum` after updating row `a` to `L`, additively. -/
theorem countSum_update (n : Nat) (cl : Nat → List Nat) (a : Nat) (L : List Nat) (e : Nat)
    (ha : a < n) :
    countSum n (Function.update cl a L) e + (cl a).count e = countSum n cl e + L.count e := by
  simp only [countSum]
  rw [count_update_fun]
  exact sum_range_update _ n a _ ha

/-- Merging two distinct rows (append into the winner, clear the loser)
preserves every entity's total occurrence count. -/
theorem slotCount_merge (n : Nat) (st : CState) (a b e : Nat)
    (ha : a < n) (hb : b < n) (hab : a ≠ b) :
    slotCount n (mergeClusters st a b) e = slotCount n st e := by
  have hfun : (mergeClusters st a b).clusters
      = Function.update (Function.update st.clusters a (st.clusters a ++ st.clusters b)) b [] := rfl
  simp only [slotCount, hfun]
  have e1 := countSum_update n
    (Function.update st.clusters a (st.clusters a ++ st.clusters b)) b [] e hb
  have e2 := countSum_update n st.clusters a (st.clusters a ++ st.clusters b) e ha
  have hg1b : (Function.update st.clusters a (st.clusters a ++ st.clusters b)) b
      = st.clusters b := Function.update_noteq (Ne.symm hab) _ _
  rw [hg1b, List.count_nil] at e1
  rw [List.count_append] at e2
  omega

/-- Invariant of the initialization loop after the first `k` entities have
been placed: each placed entity occurs exactly once over all rows, each
member is a placed entity sitting in the row matching its label. -/
def FillInv (n : Nat) (labels : List Nat) (k : Nat) (st : CState) : Prop :=
  (∀ e, slotCount n st e = if e < k then 1 else 0) ∧
  (∀ s e, e ∈ st.clusters s → e < k ∧ s < n ∧ labels.get? e = some (s + 1))

/-- The initialization loop establishes `FillInv` and never fails on
in-range labels. -/
theorem fillGo_inv (n : Nat) (labels : List Nat) :
    ∀ (rest : List Nat) (k : Nat) (st : CState),
      (∀ lab, lab ∈ rest → 1 ≤ lab ∧ lab ≤ n) →
      labels.drop k = rest →
      FillInv n labels k st →
      ∃ st2, fillGo n k rest st = some st2 ∧ FillInv n labels (k + rest.length) st2 := by
  intro rest
  induction rest with
  | nil =>
    intro k st _ _ hinv
    exact ⟨st, rfl, by simpa using hinv⟩
  | cons lab rest2 ih =>
    intro k st hval hdrop hinv
    have hlab := hval lab (List.mem_cons_self _ _)
    have ha : lab - 1 < n := by omega
    have hget : labels.get? k = some lab := by
      have h1 : (labels.drop k).get? 0 = some lab := by rw [hdrop]; rfl
      rw [List.get?_drop] at h1
      simpa using h1
    have hdrop2 : labels.drop (k + 1) = rest2 := by
      have h2 : (labels.drop k).drop 1 = labels.drop (k + 1) := List.drop_drop 1 k labels
      rw [hdrop] at h2
      simpa using h2.symm
    have hinvNew : FillInv n labels (k + 1)
        { clusters := Function.update st.clusters (lab - 1) (st.clusters (lab - 1) ++ [k]),
          numClusters :=
            if st.clusters (lab - 1) = [] then st.numClusters + 1 else st.numClusters } := by
      constructor
      · intro e
        have h1 := countSum_update n st.clusters (lab - 1) (st.clusters (lab - 1) ++ [k]) e ha
        rw [List.count_append] at h1
        have hsingle : List.count e [k] = if e = k then 1 else 0 := by
          by_cases h : e = k <;> simp [h]
        have hold := hinv.1 e
        simp only [slotCount] at hold ⊢
        rw [hsingle] at h1
        by_cases hek : e = k
        · rw [if_pos (by omega : e < k + 1)]
          rw [if_neg (by omega : ¬ e < k)] at hold
          rw [if_pos hek] at h1
          omega
        · rw [if_neg hek] at h1
          rcases Nat.lt_or_ge e k with hlt | hge
          · rw [if_pos (by omega : e < k + 1)]
            rw [if_pos hlt] at hold
            omega
          · rw [if_neg (by omega : ¬ e < k + 1)]
            rw [if_neg (by omega : ¬ e < k)] at hold
            omega
      · intro s e hmem
        by_cases hsa : s = lab - 1
        · subst hsa
          have hmem2 : e ∈ st.clusters (lab - 1) ++ [k] := by
            simpa [Function.update_apply] using hmem
          rcases List.mem_append.1 hmem2 with h2 | h2
          · obtain ⟨he1, hs1, hg⟩ := hinv.2 _ _ h2
            exact ⟨by omega, hs1, hg⟩
          · have hek : e = k := by simpa using h2
            subst hek
            refine ⟨by omega, ha, ?_⟩
            rw [hget]
            exact congrArg some (by omega)
        · have hmem2 : e ∈ st.clusters s := by
            simpa [Function.update_apply, hsa] using hmem
          obtain ⟨he1, hs1, hg⟩ := hinv.2 _ _ hmem2
          exact ⟨by omega, hs1, hg⟩
    obtain ⟨st2, hrun, hinv2⟩ := ih (k + 1) _
      (fun l hl => hval l (List.mem_cons_of_mem _ hl)) hdrop2 hinvNew
    refine ⟨st2, ?_, ?_⟩
    · show fillGo n k (lab :: rest2) st = some st2
      rw [show fillGo n k (lab :: rest2) st
          = if 1 ≤ lab ∧ lab ≤ n then
              fillGo n (k + 1) rest2
                { clusters :=
                    Function.update st.clusters (lab - 1) (st.clusters (lab - 1) ++ [k]),
                  numClusters :=
                    if st.clusters (lab - 1) = [] then st.numClusters + 1
                    else st.numClusters }
            else none from rfl,
        if_pos hlab]
      exact hrun
    · rw [List.length_cons, show k + (rest2.length + 1) = k + 1 + rest2.length from by omega]
      exact hinv2

/-- Initialization succeeds on valid labels and establishes the fill
invariant for all `n` entities. -/
theorem fillClusters_inv (n : Nat) (mlg : List Nat)
    (hval : ∀ lab, lab ∈ mlg → 1 ≤ lab ∧ lab ≤ n) :
    ∃ st0, fillClusters n mlg = some st0 ∧ FillInv n mlg mlg.length st0 := by
  have h0 : FillInv n mlg 0 ⟨fun _ => [], 0⟩ := by
    constructor
    · intro e
      simp [slotCount, countSum]
    · intro s e he
      exact absurd he (List.not_mem_nil e)
  obtain ⟨st0, h1, h2⟩ := fillGo_inv n mlg mlg 0 ⟨fun _ => [], 0⟩ hval (List.drop_zero mlg) h0
  exact ⟨st0, h1, by simpa using h2⟩

/-- Run invariant: every entity of `[0, n)` sits in exactly one row, every
member is an entity whose label is at least its row's 1-based id, and
every nonempty row contains a member whose label is exactly the row's
1-based id. -/
def LoopInv (n : Nat) (labels : List Nat) (st : CState) : Prop :=
  (∀ e, e < n → slotCount n st e = 1) ∧
  (∀ s e, e ∈ st.clusters s → e < n ∧ s < n ∧ ∃ v, labels.get? e = some v ∧ s + 1 ≤ v) ∧
  (∀ s, s < n → st.clusters s ≠ [] → ∃ e, e ∈ st.clusters s ∧ labels.get? e = some (s + 1))

/-- The fill invariant for all entities implies the run invariant. -/
theorem fillInv_to_loopInv (n : Nat) (labels : List Nat) (st : CState)
    (hlen : labels.length = n) (h : FillInv n labels labels.length st) :
    LoopInv n labels st := by
  obtain ⟨h1, h2⟩ := h
  refine ⟨?_, ?_, ?_⟩
  · intro e he
    rw [h1 e, if_pos (by omega)]
  · intro s e hmem
    obtain ⟨he, hs, hg⟩ := h2 s e hmem
    exact ⟨by omega, hs, ⟨s + 1, hg, le_rfl⟩⟩
  · intro s hs hne
    obtain ⟨e, hmem⟩ := List.exists_mem_of_ne_nil _ hne
    obtain ⟨he, _, hg⟩ := h2 s e hmem
    exact ⟨e, hmem, hg⟩

/-- Merging the recorded pair preserves the run invariant. -/
theorem loopInv_merge (n : Nat) (labels : List Nat) (st : CState) (a b : Nat)
    (hinv : LoopInv n labels st) (hab : a < b) (hbn : b < n)
    (hane : st.clusters a ≠ []) :
    LoopInv n labels (mergeClusters st a b) := by
  have han : a < n := lt_trans hab hbn
  obtain ⟨h1, h2, h3⟩ := hinv
  refine ⟨?_, ?_, ?_⟩
  · intro e he
    rw [slotCount_merge n st a b e han hbn (by omega)]
    exact h1 e he
  · intro s e hmem
    by_cases hsb : s = b
    · subst hsb
      simp [mergeClusters, Function.update_same] at hmem
    · by_cases hsa : s = a
      · subst hsa
        have hmem2 : e ∈ st.clusters s ++ st.clusters b := by
          simpa [mergeClusters, Function.update_apply, hsb] using hmem
        rcases List.mem_append.1 hmem2 with h | h
        · exact h2 s e h
        · obtain ⟨he, _, v, hv, hle⟩ := h2 b e h
          exact ⟨he, han, v, hv, by omega⟩
      · have hmem2 : e ∈ st.clusters s := by
          simpa [mergeClusters, Function.update_apply, hsa, hsb] using hmem
        exact h2 s e hmem2
  · intro s hs hne
    by_cases hsb : s = b
    · subst hsb
      exfalso
      apply hne
      simp [mergeClusters, Function.update_same]
    · by_cases hsa : s = a
      · subst hsa
        obtain ⟨e, hmem, hg⟩ := h3 s hs hane
        refine ⟨e, ?_, hg⟩
        have : (mergeClusters st s b).clusters s = st.clusters s ++ st.clusters b := by
          simp [mergeClusters, Function.update_apply, hsb]
        rw [this]
        exact List.mem_append_left _ hmem
      · have hcl : (mergeClusters st a b).clusters s = st.clusters s := by
          simp [mergeClusters, Function.update_apply, hsa, hsb]
        rw [hcl] at hne ⊢
        exact h3 s hs hne

/-- One loop body preserves the run invariant. -/
theorem loopInv_body (n : Nat) (d : Nat → Nat → ℚ) (th : ℚ) (labels : List Nat)
    (st : CState) (hinv : LoopInv n labels st) :
    LoopInv n labels (loopBody n d th st).1 := by
  rcases hcase : scanClusters n d st.clusters with ⟨m2, p⟩
  cases p with
  | none =>
    have : (loopBody n d th st).1 = st := by
      simp only [loopBody, hcase]
      split_ifs <;> rfl
    rw [this]
    exact hinv
  | some pr =>
    obtain ⟨a, b⟩ := pr
    have hsound := scanClusters_pair_sound n d st.clusters m2 a b hcase
    by_cases hlt : m2 < th
    · have : (loopBody n d th st).1 = mergeClusters st a b := by
        simp only [loopBody, hcase]
        rw [if_pos hlt]
      rw [this]
      exact loopInv_merge n labels st a b hinv hsound.1 hsound.2.1 hsound.2.2
    · have : (loopBody n d th st).1 = st := by
        simp only [loopBody, hcase]
        rw [if_neg hlt]
      rw [this]
      exact hinv

/-- The whole loop preserves the run invariant, for every fuel. -/
theorem loopInv_run (n : Nat) (d : Nat → Nat → ℚ) (th : ℚ) (labels : List Nat) :
    ∀ (f : Nat) (st : CState) (m : ℚ), LoopInv n labels st →
      LoopInv n labels (runLoop n d th f st m) := by
  intro f
  induction f with
  | zero => intro st m h; exact h
  | succ f ih =>
    intro st m h
    rw [runLoop_succ]
    split_ifs with hg
    · exact ih _ _ (loopInv_body n d th labels st h)
    · exact h

/-- A row that is empty stays empty through the rest of the run: merges
clear their loser and their winner is always nonempty beforehand. -/
theorem clusters_empty_persists (n : Nat) (d : Nat → Nat → ℚ) (th : ℚ) :
    ∀ (f : Nat) (st : CState) (m : ℚ) (s : Nat),
      st.clusters s = [] → (runLoop n d th f st m).clusters s = [] := by
  intro f
  induction f with
  | zero => intro st m s h; exact h
  | succ f ih =>
    intro st m s h
    rw [runLoop_succ]
    split_ifs with hg
    · apply ih
      rcases hcase : scanClusters n d st.clusters with ⟨m2, p⟩
      cases p with
      | none =>
        have hb : (loopBody n d th st).1 = st := by
          simp only [loopBody, hcase]
          split_ifs <;> rfl
        rw [hb]
        exact h
      | some pr =>
        obtain ⟨a, b⟩ := pr
        have hsound := scanClusters_pair_sound n d st.clusters m2 a b hcase
        by_cases hlt : m2 < th
        · have hb : (loopBody n d th st).1 = mergeClusters st a b := by
            simp only [loopBody, hcase]
            rw [if_pos hlt]
          rw [hb]
          by_cases hsb : s = b
          · subst hsb
            simp [mergeClusters, Function.update_same]
          · rw [show (mergeClusters st a b).clusters s
                = Function.update (Function.update st.clusters a
                    (st.clusters a ++ st.clusters b)) b [] s from rfl,
              Function.update_noteq hsb]
            by_cases hsa : s = a
            · subst hsa
              exact absurd h hsound.2.2
            · rw [Function.update_noteq hsa]
              exact h
        · have hb : (loopBody n d th st).1 = st := by
            simp only [loopBody, hcase]
            rw [if_neg hlt]
          rw [hb]
          exact h
    · exact h

/-- Under a stable partition (no pair of distinct nonempty rows closer
than the threshold), the loop never changes the state. -/
theorem runLoop_stable (n : Nat) (d : Nat → Nat → ℚ) (th : ℚ) (st : CState)
    (hd : ∀ k l, 0 ≤ d k l)
    (hs : ∀ i, i < n → ∀ j, j < n → i ≠ j → st.clusters i ≠ [] → st.clusters j ≠ [] →
      th ≤ clDist d (st.clusters i) (st.clusters j)) :
    ∀ (f : Nat) (m : ℚ), runLoop n d th f st m = st := by
  intro f
  induction f with
  | zero => intro m; rfl
  | succ f ih =>
    intro m
    rw [runLoop_succ]
    split_ifs with hg
    · have hb1 : (loopBody n d th st).1 = st := by
        rcases scanClusters_stable n d st.clusters th hd hs with h | h
        · simp only [loopBody, h]
          split_ifs <;> rfl
        · simp only [loopBody]
          rw [if_neg (not_lt.2 h)]
      rw [hb1]
      exact ih _
    · rfl

/-- Writing a row that does not contain `e` leaves `Rout[e]` unchanged. -/
theorem innerWrite_notmem (s e : Nat) :
    ∀ (M : List Nat) (out0 : Nat → Option Nat), e ∉ M →
      (M.foldl (fun o x => Function.update o x (some (s + 1))) out0) e = out0 e := by
  intro M
  induction M with
  | nil => intro out0 _; rfl
  | cons x M ih =>
    intro out0 h
    have hx : e ≠ x := fun hh => h (hh ▸ List.mem_cons_self x M)
    rw [show (x :: M).foldl (fun o x2 => Function.update o x2 (some (s + 1))) out0
        = M.foldl (fun o x2 => Function.update o x2 (some (s + 1)))
            (Function.update out0 x (some (s + 1))) from rfl,
      ih _ (fun hh => h (List.mem_cons_of_mem x hh))]
    exact Function.update_noteq hx _ _

/-- Writing a row that contains `e` sets `Rout[e]` to the row's 1-based
id. -/
theorem innerWrite_mem (s e : Nat) :
    ∀ (M : List Nat) (out0 : Nat → Option Nat), e ∈ M →
      (M.foldl (fun o x => Function.update o x (some (s + 1))) out0) e = some (s + 1) := by
  intro M
  induction M with
  | nil => intro out0 h; exact absurd h (List.not_mem_nil e)
  | cons x M ih =>
    intro out0 h
    by_cases hx : e ∈ M
    · exact ih _ hx
    · have hex : e = x := by
        rcases List.mem_cons.1 h with h1 | h1
        · exact h1
        · exact absurd h1 hx
      rw [show (x :: M).foldl (fun o x2 => Function.update o x2 (some (s + 1))) out0
          = M.foldl (fun o x2 => Function.update o x2 (some (s + 1)))
              (Function.update out0 x (some (s + 1))) from rfl,
        innerWrite_notmem s e M _ hx, hex]
      exact Function.update_same x _ out0

/-- The output loop over rows none of which contain `e` leaves `Rout[e]`
unchanged. -/
theorem outWrite_skip (cl : Nat → List Nat) (e : Nat) :
    ∀ (L : List Nat) (out0 : Nat → Option Nat), (∀ s, s ∈ L → e ∉ cl s) →
      (L.foldl (fun out s => (cl s).foldl (fun o x => Function.update o x (some (s + 1))) out) out0) e
        = out0 e := by
  intro L
  induction L with
  | nil => intro out0 _; rfl
  | cons x L ih =>
    intro out0 h
    rw [show (x :: L).foldl
          (fun out s => (cl s).foldl (fun o x2 => Function.update o x2 (some (s + 1))) out) out0
        = L.foldl (fun out s => (cl s).foldl (fun o x2 => Function.update o x2 (some (s + 1))) out)
            ((cl x).foldl (fun o x2 => Function.update o x2 (some (x + 1))) out0) from rfl,
      ih _ (fun s hs => h s (List.mem_cons_of_mem x hs))]
    exact innerWrite_notmem x e (cl x) out0 (h x (List.mem_cons_self x L))

/-- If `e` sits in row `s0` of the visited rows and in no other visited
row, the output loop sets `Rout[e] = s0 + 1`. -/
theorem outWrite_eq (cl : Nat → List Nat) (e s0 : Nat) :
    ∀ (L : List Nat) (out0 : Nat → Option Nat),
      s0 ∈ L → e ∈ cl s0 → (∀ s, s ∈ L → s ≠ s0 → e ∉ cl s) →
      (L.foldl (fun out s => (cl s).foldl (fun o x => Function.update o x (some (s + 1))) out) out0) e
        = some (s0 + 1) := by
  intro L
  induction L with
  | nil => intro out0 h _ _; exact absurd h (List.not_mem_nil s0)
  | cons x L ih =>
    intro out0 hmemL hmem huniq
    by_cases hs0L : s0 ∈ L
    · exact ih _ hs0L hmem (fun s hs hne => huniq s (List.mem_cons_of_mem x hs) hne)
    · have hx : x = s0 := by
        rcases List.mem_cons.1 hmemL with h | h
        · exact h.symm
        · exact absurd h hs0L
      have hnot : ∀ s, s ∈ L → e ∉ cl s := by
        intro s hs
        by_cases hne : s = s0
        · exact fun _ => hs0L (hne ▸ hs)
        · exact huniq s (List.mem_cons_of_mem x hs) hne
      rw [show (x :: L).foldl
            (fun out s => (cl s).foldl (fun o x2 => Function.update o x2 (some (s + 1))) out) out0
          = L.foldl (fun out s => (cl s).foldl (fun o x2 => Function.update o x2 (some (s + 1))) out)
              ((cl x).foldl (fun o x2 => Function.update o x2 (some (x + 1))) out0) from rfl,
        outWrite_skip cl e L _ hnot, hx]
      exact innerWrite_mem s0 e (cl s0) out0 hmem

/-- If `e` occurs exactly once over all rows and sits in row `s0`, it sits
in no other row. -/
theorem slotCount_mem_unique (n : Nat) (st : CState) (e s0 : Nat)
    (h1 : slotCount n st e = 1) (hs0 : s0 < n) (hm : e ∈ st.clusters s0) :
    ∀ s, s < n → s ≠ s0 → e ∉ st.clusters s := by
  intro s hs hne hmem
  have hc0 : 0 < (st.clusters s0).count e := List.count_pos_iff.2 hm
  have hcs : 0 < (st.clusters s).count e := List.count_pos_iff.2 hmem
  have hmem0 : s0 ∈ Finset.range n := Finset.mem_range.2 hs0
  have hmems : s ∈ (Finset.range n).erase s0 :=
    Finset.mem_erase.2 ⟨hne, Finset.mem_range.2 hs⟩
  have e1 : (st.clusters s0).count e
      + Finset.sum ((Finset.range n).erase s0) (fun s2 => (st.clusters s2).count e)
      = Finset.sum (Finset.range n) (fun s2 => (st.clusters s2).count e) :=
    Finset.add_sum_erase (Finset.range n) (fun s2 => (st.clusters s2).count e) hmem0
  have e2 : (st.clusters s).count e
      ≤ Finset.sum ((Finset.range n).erase s0) (fun s2 => (st.clusters s2).count e) :=
    Finset.single_le_sum
      (fun (i : Nat) (_ : i ∈ (Finset.range n).erase s0) =>
        Nat.zero_le ((st.clusters i).count e)) hmems
  simp only [slotCount, countSum] at h1
  omega

/-- If `e` occurs exactly once over all rows, some row contains it. -/
theorem slotCount_mem_exists (n : Nat) (st : CState) (e : Nat)
    (h1 : slotCount n st e = 1) : ∃ s, s < n ∧ e ∈ st.clusters s := by
  by_contra h
  push_neg at h
  have hz : ∀ s ∈ Finset.range n, (st.clusters s).count e = 0 := by
    intro s hs
    exact List.count_eq_zero.2 (h s (Finset.mem_range.1 hs))
  simp only [slotCount, countSum] at h1
  rw [Finset.sum_eq_zero hz] at h1
  exact absurd h1 (by omega)

/-- The output vector of an entity that sits in exactly one row among
`[0, n)` is that row's 1-based id. -/
theorem fillOutput_eq (n : Nat) (cl : Nat → List Nat) (e s0 : Nat)
    (hs0 : s0 < n) (hmem : e ∈ cl s0)
    (huniq : ∀ s, s < n → s ≠ s0 → e ∉ cl s) :
    fillOutput n cl e = some (s0 + 1) := by
  rw [fillOutput]
  exact outWrite_eq cl e s0 (List.range n) _ (List.mem_range.2 hs0) hmem
    (fun s hs hne => huniq s (List.mem_range.1 hs) hne)

/-- Reading the output list at an in-range index gives the output
function's value there. -/
theorem outputList_getD (n : Nat) (st : CState) (e : Nat) (he : e < n) :
    (outputList n st).getD e none = fillOutput n st.clusters e := by
  simp [outputList, List.getD_eq_getElem?_getD, List.getElem?_map, List.getElem?_range, he]

/-- Under the run invariant, every entity sits in a unique row and gets
that row's 1-based id as its output label. -/
theorem loopInv_output (n : Nat) (labels : List Nat) (st : CState)
    (hinv : LoopInv n labels st) (e : Nat) (he : e < n) :
    ∃ s, s < n ∧ e ∈ st.clusters s ∧ fillOutput n st.clusters e = some (s + 1) := by
  obtain ⟨s, hs, hmem⟩ := slotCount_mem_exists n st e (hinv.1 e he)
  exact ⟨s, hs, hmem, fillOutput_eq n st.clusters e s hs hmem
    (slotCount_mem_unique n st e s (hinv.1 e he) hs hmem)⟩

/-- The fill invariant holds for whatever state initialization returns. -/
theorem fillClusters_fillInv (n : Nat) (mlg : List Nat) (st0 : CState)
    (hval : ∀ lab, lab ∈ mlg → 1 ≤ lab ∧ lab ≤ n)
    (h0 : fillClusters n mlg = some st0) : FillInv n mlg mlg.length st0 := by
  obtain ⟨st1, h1, h2⟩ := fillClusters_inv n mlg hval
  rw [h0] at h1
  cases Option.some.inj h1
  exact h2

/-- Stripping the `some` wrappers from a fully defined labeling gives back
the labels. -/
theorem reduceOption_map_some (l : List Nat) : (l.map some).reduceOption = l := by
  induction l with
  | nil => rfl
  | cons x l ih => simp [List.reduceOption_cons_of_some, ih]

/-- `getD` at a position known to hold `some v` returns `v`. -/
theorem getD_of_getQ (l : List Nat) (i v : Nat) (h : l.get? i = some v) :
    l.getD i 0 = v := by
  simp [List.getD_eq_getElem?_getD, ← List.get?_eq_getElem?, h]

/-- Right after initialization, the output loop reproduces the input
labels: entity `e` sits in row `mlg[e] - 1` and gets `mlg[e]` back. -/
theorem outputList_fill_eq (n : Nat) (mlg : List Nat) (st0 : CState)
    (hlen : mlg.length = n) (hval : ∀ lab, lab ∈ mlg → 1 ≤ lab ∧ lab ≤ n)
    (h0 : fillClusters n mlg = some st0) :
    outputList n st0 = mlg.map some := by
  have hfi := fillClusters_fillInv n mlg st0 hval h0
  apply List.ext_get
  · simp [outputList, hlen]
  · intro i h1 h2
    have hi : i < n := by simpa [outputList] using h1
    have hilen : i < mlg.length := by omega
    simp only [outputList, List.get_eq_getElem, List.getElem_map, List.getElem_range]
    have hsc : slotCount n st0 i = 1 := by
      rw [hfi.1 i, if_pos (by omega)]
    obtain ⟨s, hs, hmem⟩ := slotCount_mem_exists n st0 i hsc
    obtain ⟨_, _, hg⟩ := hfi.2 s i hmem
    rw [fillOutput_eq n st0.clusters i s hs hmem
      (slotCount_mem_unique n st0 i s hsc hs hmem)]
    have h3 : mlg.get? i = some (mlg.get ⟨i, hilen⟩) := List.get?_eq_get hilen
    have h4 : mlg.get ⟨i, hilen⟩ = s + 1 := Option.some.inj (h3.symm.trans hg)
    simp [← h4, List.get_eq_getElem]

/-- State produced by initialization on two singleton labels. -/
def stTwo : CState := (fillClusters 2 [1, 2]).getD ⟨fun _ => [], 0⟩

/-- Initialization on `[1, 2]` yields `stTwo`. -/
theorem fillClusters_two : fillClusters 2 [1, 2] = some stTwo := rfl

/-- Row 0 of `stTwo` holds entity 0. -/
theorem stTwo_cl0 : stTwo.clusters 0 = [0] := rfl

/-- Row 1 of `stTwo` holds entity 1. -/
theorem stTwo_cl1 : stTwo.clusters 1 = [1] := rfl

/-- `stTwo` counts two clusters. -/
theorem stTwo_nc : stTwo.numClusters = 2 := rfl

/-- `negHalf` is negative. -/
theorem negHalf_lt_zero : negHalf < 0 := by decide

/-- Once the guard fails, any remaining fuel returns the state as is. -/
theorem runLoop_exit (n : Nat) (d : Nat → Nat → ℚ) (th : ℚ) (st : CState) (m : ℚ)
    (h : ¬ (m < th ∧ 1 < st.numClusters)) :
    ∀ f, runLoop n d th f st m = st := by
  intro f
  cases f with
  | zero => rfl
  | succ f => rw [runLoop_succ, if_neg h]

/-- The scan on the two-singleton state records pair `(0, 1)` at distance
`d 0 1`. -/
theorem scanClusters_two (d : Nat → Nat → ℚ) (hd : (0 : ℚ) ≤ d 0 1) :
    scanClusters 2 d stTwo.clusters = (d 0 1, some (0, 1)) := by
  have h01 : tmpMaxFold d (stTwo.clusters 0) (stTwo.clusters 1) (-1) = d 0 1 := by
    rw [stTwo_cl0, stTwo_cl1]
    show (if d 0 1 > -1 then d 0 1 else -1) = d 0 1
    rw [if_pos (by linarith)]
  have hi0 : scanIstep 2 d stTwo.clusters (-1, none) 0 = (d 0 1, some (0, 1)) := by
    rw [scanIstep]
    rw [show List.range' (0 + 1) (2 - (0 + 1)) = [1] from rfl]
    rw [show ([1] : List Nat).foldl (scanJstep d stTwo.clusters 0) (-1, (-1 : ℚ), none)
        = scanJstep d stTwo.clusters 0 (-1, (-1 : ℚ), none) 1 from rfl]
    simp only [scanJstep]
    rw [h01, if_pos ⟨by have := negHalf_lt_zero; linarith, Or.inr (by norm_num)⟩]
  rw [scanClusters, show List.range 2 = [0, 1] from rfl,
    show ([0, 1] : List Nat).foldl (scanIstep 2 d stTwo.clusters) (-1, none)
      = scanIstep 2 d stTwo.clusters (scanIstep 2 d stTwo.clusters (-1, none) 0) 1 from rfl,
    hi0]
  rfl

/-- Two singletons strictly below threshold merge and the loop stops. -/
theorem finalState_two_merge (d : Nat → Nat → ℚ) (t : ℚ)
    (hd : (0 : ℚ) ≤ d 0 1) (hlt : d 0 1 < t) :
    finalState 2 d t stTwo = mergeClusters stTwo 0 1 := by
  rw [finalState, runLoop_succ, if_pos ⟨by linarith, by rw [stTwo_nc]; omega⟩]
  have hb : loopBody 2 d t stTwo = (mergeClusters stTwo 0 1, d 0 1) := by
    simp only [loopBody, scanClusters_two d hd]
    rw [if_pos hlt]
  rw [hb]
  exact runLoop_exit 2 d t (mergeClusters stTwo 0 1) (d 0 1)
    (by rintro ⟨-, h⟩; exact absurd h (by show ¬ 1 < 1; omega)) 2

/-- Two singletons at distance exactly the threshold do not merge. -/
theorem finalState_two_eq (d : Nat → Nat → ℚ) (t : ℚ)
    (hd : (0 : ℚ) ≤ d 0 1) (heq : d 0 1 = t) :
    finalState 2 d t stTwo = stTwo := by
  rw [finalState, runLoop_succ, if_pos ⟨by linarith, by rw [stTwo_nc]; omega⟩]
  have hb : loopBody 2 d t stTwo = (stTwo, d 0 1) := by
    simp only [loopBody, scanClusters_two d hd]
    rw [if_neg (by rw [heq]; exact lt_irrefl t)]
  rw [hb]
  exact runLoop_exit 2 d t stTwo (d 0 1)
    (by rintro ⟨h, -⟩; rw [heq] at h; exact lt_irrefl t h) 2

/-- State produced by initialization on the single label `[1]`. -/
def stOne : CState := (fillClusters 1 [1]).getD ⟨fun _ => [], 0⟩

/-- Initialization on `[1]` yields `stOne`. -/
theorem fillClusters_one : fillClusters 1 [1] = some stOne := rfl

/-- The everywhere-zero distance matrix. -/
def dZero : Nat → Nat → ℚ := fun _ _ => 0

/-- The everywhere-one distance matrix. -/
def dOne : Nat → Nat → ℚ := fun _ _ => 1

/-- The everywhere-five distance matrix. -/
def dFive : Nat → Nat → ℚ := fun _ _ => 5

/-- Claim C3: a selected pair is merged exactly when its selected distance
is strictly below the threshold (the branch at C line 187 is `<`), and on
two singleton clusters a distance exactly equal to the threshold never
merges while any nonnegative distance strictly below it does. -/
theorem c3_threshold_strict (n : Nat) (d : Nat → Nat → ℚ) (t : ℚ) (st : CState)
    (m : ℚ) (a b : Nat) (hd : ∀ k l, 0 ≤ d k l)
    (hscan : scanClusters n d st.clusters = (m, some (a, b))) :
    ((m < t → loopBody n d t st = (mergeClusters st a b, m)) ∧
      (¬ m < t → loopBody n d t st = (st, m))) ∧
    (d 0 1 = t → farthest_neighbor 2 d [1, 2] t = some [some 1, some 2]) ∧
    (d 0 1 < t → farthest_neighbor 2 d [1, 2] t = some [some 1, some 1]) := by
  refine ⟨⟨?_, ?_⟩, ?_, ?_⟩
  · intro hm
    simp only [loopBody, hscan]
    rw [if_pos hm]
  · intro hm
    simp only [loopBody, hscan]
    rw [if_neg hm]
  · intro heq
    rw [farthest_neighbor, fillClusters_two, Option.map_some',
      finalState_two_eq d t (hd 0 1) heq]
    exact congrArg some (by decide)
  · intro hlt
    rw [farthest_neighbor, fillClusters_two, Option.map_some',
      finalState_two_merge d t (hd 0 1) hlt]
    exact congrArg some (by decide)

/-- Witness for C3: with the all-ones matrix, threshold 1 (equal) keeps
the two singletons apart, threshold 2 (strictly above the distance) merges
them. -/
theorem c3_threshold_strict_witness :
    farthest_neighbor 2 dOne [1, 2] 1 = some [some 1, some 2] ∧
    farthest_neighbor 2 dOne [1, 2] 2 = some [some 1, some 1] := by
  have h1 := c3_threshold_strict 2 dOne 1 stTwo 1 0 1 (fun k l => by norm_num [dOne]) (by decide)
  have h2 := c3_threshold_strict 2 dOne 2 stTwo 1 0 1 (fun k l => by norm_num [dOne]) (by decide)
  exact ⟨h1.2.1 rfl, h2.2.2 (by norm_num [dOne])⟩

/-- Claim C4: within a scan, a candidate replaces the current best only
when its compared value is strictly below the current minimum (else both
minimum and pair are kept), so two tied candidate pairs keep the one met
earlier in ascending `(i, j)` order; concretely, with
`d(0,1) = d(2,3) = 1` tied below threshold 2, the scan over four
singletons records `(0, 1)` and the first loop iteration merges that
pair, leaving cluster 2 untouched. -/
theorem c4_tie_break (d0 : Nat → Nat → ℚ) (cl : Nat → List Nat) (i : Nat)
    (acc : ℚ × ℚ × Option (Nat × Nat)) (j : Nat)
    (hmin : 0 ≤ acc.2.1) (hge : acc.2.1 ≤ tmpMaxFold d0 (cl i) (cl j) acc.1) :
    ((scanJstep d0 cl i acc j).2.1 = acc.2.1 ∧ (scanJstep d0 cl i acc j).2.2 = acc.2.2) ∧
    (fillClusters 4 [1, 2, 3, 4]).map (fun st => scanClusters 4 exDist st.clusters)
      = some (1, some (0, 1)) ∧
    clDist exDist [0] [1] = clDist exDist [2] [3] ∧
    (fillClusters 4 [1, 2, 3, 4]).map (fun st =>
        ((loopBody 4 exDist 2 st).1.clusters 0, (loopBody 4 exDist 2 st).1.clusters 1,
         (loopBody 4 exDist 2 st).1.clusters 2))
      = some ([0, 1], [], [2]) := by
  have hcond : ¬ (tmpMaxFold d0 (cl i) (cl j) acc.1 > negHalf ∧
      (tmpMaxFold d0 (cl i) (cl j) acc.1 < acc.2.1 ∨ acc.2.1 < 0)) := by
    rintro ⟨-, h | h⟩
    · exact absurd h (not_lt.2 hge)
    · exact absurd h (not_lt.2 hmin)
  refine ⟨⟨?_, ?_⟩, by decide, by decide, by decide⟩
  · simp only [scanJstep]
    rw [if_neg hcond]
  · simp only [scanJstep]
    rw [if_neg hcond]

/-- Witness for C4: a candidate whose value 5 is not below the current
minimum 3 leaves both the minimum and the recorded pair unchanged. -/
theorem c4_tie_break_witness :
    (scanJstep dFive stTwo.clusters 0 (-1, 3, some (7, 8)) 1).2.1 = 3 ∧
    (scanJstep dFive stTwo.clusters 0 (-1, 3, some (7, 8)) 1).2.2 = some (7, 8) := by
  have h := c4_tie_break dFive stTwo.clusters 0 (-1, 3, some (7, 8)) 1
    (by norm_num) (by decide)
  exact ⟨h.1.1, h.1.2⟩

/-- Claim C5: a merge always absorbs the higher-numbered slot of the
selected pair into the lower-numbered one (`a < b`, the winner is slot
`a`), after which the loser row is empty — and any empty row stays empty
for the rest of the run — the winner row is the concatenation of both
former member lists, and `num_clusters` drops by exactly 1. -/
theorem c5_merge_semantics (n : Nat) (d : Nat → Nat → ℚ) (th : ℚ) (st : CState)
    (m : ℚ) (a b : Nat)
    (hscan : scanClusters n d st.clusters = (m, some (a, b))) (hm : m < th)
    (hnc : 1 < st.numClusters) :
    loopBody n d th st = (mergeClusters st a b, m) ∧
    a < b ∧ b < n ∧ st.clusters a ≠ [] ∧
    (mergeClusters st a b).clusters b = [] ∧
    (mergeClusters st a b).clusters a = st.clusters a ++ st.clusters b ∧
    (mergeClusters st a b).numClusters + 1 = st.numClusters ∧
    (∀ f st2 m2, st2.clusters b = [] → (runLoop n d th f st2 m2).clusters b = []) := by
  have hsound := scanClusters_pair_sound n d st.clusters m a b hscan
  refine ⟨?_, hsound.1, hsound.2.1, hsound.2.2, ?_, ?_, ?_, ?_⟩
  · simp only [loopBody, hscan]
    rw [if_pos hm]
  · show Function.update (Function.update st.clusters a (st.clusters a ++ st.clusters b)) b [] b
      = []
    simp
  · show Function.update (Function.update st.clusters a (st.clusters a ++ st.clusters b)) b [] a
      = st.clusters a ++ st.clusters b
    rw [Function.update_noteq (by omega : a ≠ b), Function.update_same]
  · show st.numClusters - 1 + 1 = st.numClusters
    omega
  · intro f st2 m2 h2
    exact clusters_empty_persists n d th f st2 m2 b h2

/-- Witness for C5: the two-singleton state at distance 0, threshold 1:
slot 0 absorbs slot 1 and slot 1 stays empty five iterations later. -/
theorem c5_merge_semantics_witness :
    loopBody 2 dZero 1 stTwo = (mergeClusters stTwo 0 1, 0) ∧
    (mergeClusters stTwo 0 1).clusters 1 = [] ∧
    (mergeClusters stTwo 0 1).numClusters + 1 = stTwo.numClusters ∧
    (runLoop 2 dZero 1 5 (mergeClusters stTwo 0 1) 0).clusters 1 = [] := by
  have h := c5_merge_semantics 2 dZero 1 stTwo 0 0 1 (by decide) (by norm_num) (by decide)
  exact ⟨h.1, h.2.2.2.2.1, h.2.2.2.2.2.2.1,
    h.2.2.2.2.2.2.2 5 (mergeClusters stTwo 0 1) 0 h.2.2.2.2.1⟩

/-- Claim C6: for every entity `e`, the returned label is the 1-based id
of the slot containing `e` at termination; a slot that is empty at
termination never appears in the output; and the surviving slot ids may be
a sparse subset of `[1, n]` — on the four-entity example the output is
`[1, 1, 3, 3]`, skipping label 2 while using label 3, so the labeling is
not compacted to a dense range. -/
theorem c6_output_encoding (n : Nat) (d : Nat → Nat → ℚ) (mlg : List Nat) (th : ℚ)
    (st0 : CState) (hlen : mlg.length = n)
    (hval : ∀ lab, lab ∈ mlg → 1 ≤ lab ∧ lab ≤ n)
    (h0 : fillClusters n mlg = some st0) :
    farthest_neighbor n d mlg th = some (outputList n (finalState n d th st0)) ∧
    (∀ e s, e < n → s < n → e ∈ (finalState n d th st0).clusters s →
      (outputList n (finalState n d th st0)).getD e none = some (s + 1)) ∧
    (∀ s, s < n → (finalState n d th st0).clusters s = [] →
      ∀ e, e < n → (outputList n (finalState n d th st0)).getD e none ≠ some (s + 1)) ∧
    farthest_neighbor 4 exDist [1, 2, 3, 4] 2 = some [some 1, some 1, some 3, some 3] := by
  have hfi := fillClusters_fillInv n mlg st0 hval h0
  have hinv0 := fillInv_to_loopInv n mlg st0 hlen hfi
  have hinvF : LoopInv n mlg (finalState n d th st0) :=
    loopInv_run n d th mlg (n + 1) st0 (-1) hinv0
  refine ⟨?_, ?_, ?_, by decide⟩
  · rw [farthest_neighbor, h0]
    rfl
  · intro e s he hs hmem
    rw [outputList_getD n _ e he]
    obtain ⟨s2, hs2, hmem2, hout⟩ := loopInv_output n mlg _ hinvF e he
    by_cases hss : s = s2
    · rw [hss]
      exact hout
    · exact absurd hmem
        (slotCount_mem_unique n _ e s2 (hinvF.1 e he) hs2 hmem2 s hs hss)
  · intro s hs hempty e he
    rw [outputList_getD n _ e he]
    obtain ⟨s2, hs2, hmem2, hout⟩ := loopInv_output n mlg _ hinvF e he
    rw [hout]
    intro hcontra
    have hsame : s2 = s := by
      have := Option.some.inj hcontra
      omega
    rw [hsame, hempty] at hmem2
    exact List.not_mem_nil e hmem2

/-- Witness for C6: the one-entity run, plus the sparse four-entity
output. -/
theorem c6_output_encoding_witness :
    farthest_neighbor 1 dZero [1] 0 = some (outputList 1 (finalState 1 dZero 0 stOne)) ∧
    (outputList 1 (finalState 1 dZero 0 stOne)).getD 0 none = some 1 ∧
    farthest_neighbor 4 exDist [1, 2, 3, 4] 2 = some [some 1, some 1, some 3, some 3] := by
  have h := c6_output_encoding 1 dZero [1] 0 stOne rfl (by decide) rfl
  exact ⟨h.1, h.2.1 0 0 (by decide) (by decide) (by decide), h.2.2.2⟩

/-- Claim C7: after initialization every entity of `[0, n)` occurs in
exactly one cluster row; each loop iteration preserves this partition
property for any state (no entity is duplicated or lost); and at
termination every entity receives exactly one output label, which is one
of the original input label values. -/
theorem c7_partition_containment (n : Nat) (d : Nat → Nat → ℚ) (mlg : List Nat) (th : ℚ)
    (st0 : CState) (hlen : mlg.length = n)
    (hval : ∀ lab, lab ∈ mlg → 1 ≤ lab ∧ lab ≤ n)
    (h0 : fillClusters n mlg = some st0) :
    (∀ e, e < n → slotCount n st0 e = 1) ∧
    (∀ st : CState, (∀ e, e < n → slotCount n st e = 1) →
      ∀ e, e < n → slotCount n (loopBody n d th st).1 e = 1) ∧
    (∀ e, e < n → ∃ s, s < n ∧ e ∈ (finalState n d th st0).clusters s ∧
      (outputList n (finalState n d th st0)).getD e none = some (s + 1) ∧
      (s + 1) ∈ mlg) := by
  have hfi := fillClusters_fillInv n mlg st0 hval h0
  have hinv0 := fillInv_to_loopInv n mlg st0 hlen hfi
  have hinvF : LoopInv n mlg (finalState n d th st0) :=
    loopInv_run n d th mlg (n + 1) st0 (-1) hinv0
  refine ⟨hinv0.1, ?_, ?_⟩
  · intro st hpart e he
    rcases hcase : scanClusters n d st.clusters with ⟨m2, p⟩
    cases p with
    | none =>
      have hb : (loopBody n d th st).1 = st := by
        simp only [loopBody, hcase]
        split_ifs <;> rfl
      rw [hb]
      exact hpart e he
    | some pr =>
      obtain ⟨a, b⟩ := pr
      have hsound := scanClusters_pair_sound n d st.clusters m2 a b hcase
      by_cases hlt : m2 < th
      · have hb : (loopBody n d th st).1 = mergeClusters st a b := by
          simp only [loopBody, hcase]
          rw [if_pos hlt]
        rw [hb, slotCount_merge n st a b e (lt_trans hsound.1 hsound.2.1) hsound.2.1
          (by omega)]
        exact hpart e he
      · have hb : (loopBody n d th st).1 = st := by
          simp only [loopBody, hcase]
          rw [if_neg hlt]
        rw [hb]
        exact hpart e he
  · intro e he
    obtain ⟨s, hs, hmem, hout⟩ := loopInv_output n mlg _ hinvF e he
    have hne : (finalState n d th st0).clusters s ≠ [] := by
      intro hnil
      rw [hnil] at hmem
      exact List.not_mem_nil e hmem
    obtain ⟨e2, hmem2, hg2⟩ := hinvF.2.2 s hs hne
    refine ⟨s, hs, hmem, ?_, List.get?_mem hg2⟩
    rw [outputList_getD n _ e he]
    exact hout

/-- Witness for C7 on the one-entity run. -/
theorem c7_partition_containment_witness :
    slotCount 1 stOne 0 = 1 ∧
    slotCount 1 (loopBody 1 dZero 0 stOne).1 0 = 1 ∧
    (∃ s, s < 1 ∧ 0 ∈ (finalState 1 dZero 0 stOne).clusters s ∧
      (outputList 1 (finalState 1 dZero 0 stOne)).getD 0 none = some (s + 1) ∧
      (s + 1) ∈ [1]) := by
  have h := c7_partition_containment 1 dZero [1] 0 stOne rfl (by decide) rfl
  exact ⟨h.1 0 (by decide), h.2.1 stOne h.1 0 (by decide), h.2.2 0 (by decide)⟩

/-- Claim C9: if the initial partition already has no pair of distinct
nonempty clusters at complete-linkage distance strictly below the
threshold, the run performs no merge and returns the input labeling, so
running the algorithm on its own output labeling with the same matrix and
threshold returns that same labeling unchanged. -/
theorem c9_idempotent (n : Nat) (d : Nat → Nat → ℚ) (mlg : List Nat) (th : ℚ)
    (st0 : CState) (hlen : mlg.length = n)
    (hval : ∀ lab, lab ∈ mlg → 1 ≤ lab ∧ lab ≤ n)
    (hd : ∀ k l, 0 ≤ d k l)
    (h0 : fillClusters n mlg = some st0)
    (hstable : ∀ i, i < n → ∀ j, j < n → i ≠ j → st0.clusters i ≠ [] →
      st0.clusters j ≠ [] → th ≤ clDist d (st0.clusters i) (st0.clusters j)) :
    farthest_neighbor n d mlg th = some (mlg.map some) ∧
    farthest_neighbor n d ((mlg.map some).reduceOption) th = some (mlg.map some) := by
  have hmain : farthest_neighbor n d mlg th = some (mlg.map some) := by
    rw [farthest_neighbor, h0, Option.map_some',
      show finalState n d th st0 = st0 from runLoop_stable n d th st0 hd hstable (n + 1) (-1),
      outputList_fill_eq n mlg st0 hlen hval h0]
  refine ⟨hmain, ?_⟩
  rw [reduceOption_map_some]
  exact hmain

/-- Witness for C9 on the one-entity run (a single cluster is trivially
stable). -/
theorem c9_idempotent_witness :
    farthest_neighbor 1 dZero [1] 0 = some ([1].map some) ∧
    farthest_neighbor 1 dZero (([1].map some).reduceOption) 0 = some ([1].map some) :=
  c9_idempotent 1 dZero [1] 0 stOne rfl (by decide) (fun k l => le_refl 0) rfl
    (fun i hi j hj hne => absurd (by omega) hne)

/-- Claim C10: on a valid input, each entity's output label is the minimum
of the initial labels over its final cluster — the label of the slot the
cluster lives in is attained by one of its members and bounds all members
from below — and in particular no entity's label increases from input to
output. -/
theorem c10_min_label (n : Nat) (d : Nat → Nat → ℚ) (mlg : List Nat) (th : ℚ)
    (st0 : CState) (hlen : mlg.length = n)
    (hval : ∀ lab, lab ∈ mlg → 1 ≤ lab ∧ lab ≤ n)
    (hd : ∀ k l, 0 ≤ d k l) (hsym : ∀ k l, d k l = d l k)
    (h0 : fillClusters n mlg = some st0) (e : Nat) (he : e < n) :
    ∃ s, s < n ∧ e ∈ (finalState n d th st0).clusters s ∧
      (outputList n (finalState n d th st0)).getD e none = some (s + 1) ∧
      (∃ e2, e2 ∈ (finalState n d th st0).clusters s ∧ mlg.getD e2 0 = s + 1) ∧
      (∀ e2, e2 ∈ (finalState n d th st0).clusters s → s + 1 ≤ mlg.getD e2 0) ∧
      s + 1 ≤ mlg.getD e 0 := by
  have hfi := fillClusters_fillInv n mlg st0 hval h0
  have hinv0 := fillInv_to_loopInv n mlg st0 hlen hfi
  have hinvF : LoopInv n mlg (finalState n d th st0) :=
    loopInv_run n d th mlg (n + 1) st0 (-1) hinv0
  obtain ⟨s, hs, hmem, hout⟩ := loopInv_output n mlg _ hinvF e he
  refine ⟨s, hs, hmem, ?_, ?_, ?_, ?_⟩
  · rw [outputList_getD n _ e he]
    exact hout
  · have hne : (finalState n d th st0).clusters s ≠ [] := by
      intro hnil
      rw [hnil] at hmem
      exact List.not_mem_nil e hmem
    obtain ⟨e2, hmem2, hg2⟩ := hinvF.2.2 s hs hne
    exact ⟨e2, hmem2, getD_of_getQ mlg e2 (s + 1) hg2⟩
  · intro e2 hmem2
    obtain ⟨_, _, v, hv, hle⟩ := hinvF.2.1 s e2 hmem2
    rw [getD_of_getQ mlg e2 v hv]
    exact hle
  · obtain ⟨_, _, v, hv, hle⟩ := hinvF.2.1 s e hmem
    rw [getD_of_getQ mlg e v hv]
    exact hle

/-- Witness for C10 on the one-entity run. -/
theorem c10_min_label_witness :
    ∃ s, s < 1 ∧ 0 ∈ (finalState 1 dZero 0 stOne).clusters s ∧
      (outputList 1 (finalState 1 dZero 0 stOne)).getD 0 none = some (s + 1) ∧
      (∃ e2, e2 ∈ (finalState 1 dZero 0 stOne).clusters s ∧ [1].getD e2 0 = s + 1) ∧
      (∀ e2, e2 ∈ (finalState 1 dZero 0 stOne).clusters s → s + 1 ≤ [1].getD e2 0) ∧
      s + 1 ≤ [1].getD 0 0 :=
  c10_min_label 1 dZero [1] 0 stOne rfl (by decide) (fun k l => le_refl 0)
    (fun k l => rfl) rfl 0 (by decide)
